import Mathlib

/-!
Verification of the resume question-answering pipeline
(`src/app/utils/pdf_processor.py`, `src/app/services/chromadb_service.py`,
`src/app/services/resume_vector_service.py`, `src/app/services/llm_service.py`).

Python strings are modelled as `List Char` (or Lean `String` where the code
only uses whole-string library operations), Python dicts returned by the
functions are modelled as Lean structures, and machine-external services
(PDF text extraction, the ChromaDB vector index, the LLM backends) are
modelled from the spec where noted.
-/

namespace ResumeQA

/-! ### Definitions -/

/-- A chunk dictionary as built by `PDFProcessor.create_chunks_with_overlap`.
The `total_text_length` key is present only on chunks built inside the loop
(not on the single chunk returned for short texts), hence the `Option`. -/
structure Chunk where
  text : List Char
  chunk_index : Nat
  start_pos : Nat
  end_pos : Nat
  chunk_size : Nat
  overlap_chars : Nat
  total_text_length : Option Nat
deriving DecidableEq, Repr

/-- The chunk dictionary appended by one iteration of the while loop:
`end = min(start + chunk_size, len(text))`, `chunk_text = text[start:end]`,
`overlap_chars = overlap if chunk_index > 0 else 0`. -/
def mkChunk (text : List Char) (cs ov start idx : Nat) : Chunk :=
  { text := (text.drop start).take (min (start + cs) text.length - start)
  , chunk_index := idx
  , start_pos := start
  , end_pos := min (start + cs) text.length
  , chunk_size := ((text.drop start).take (min (start + cs) text.length - start)).length
  , overlap_chars := if 0 < idx then ov else 0
  , total_text_length := some text.length }

/-- The while loop of `create_chunks_with_overlap`, fuel-indexed so the
definition is total: each iteration appends `mkChunk`, breaks when
`end >= len(text)`, and otherwise continues from `start = end - overlap`
with `chunk_index + 1`.  `text.length + 1` fuel is enough whenever
`overlap < chunk_size` (proved below). -/
def createChunksAux (text : List Char) (cs ov : Nat) : Nat → Nat → Nat → List Chunk
  | _, _, 0 => []
  | start, idx, fuel + 1 =>
    if start < text.length then
      if text.length ≤ min (start + cs) text.length then
        [mkChunk text cs ov start idx]
      else
        mkChunk text cs ov start idx ::
          createChunksAux text cs ov (min (start + cs) text.length - ov) (idx + 1) fuel
    else []

/-- `PDFProcessor.create_chunks_with_overlap(text, chunk_size, overlap)`:
a single whole-text chunk when `len(text) <= chunk_size`, otherwise the
while loop starting at `start = 0`, `chunk_index = 0`. -/
def create_chunks_with_overlap (text : List Char) (cs ov : Nat) : List Chunk :=
  if text.length ≤ cs then
    [{ text := text, chunk_index := 0, start_pos := 0, end_pos := text.length
     , chunk_size := text.length, overlap_chars := 0, total_text_length := none }]
  else createChunksAux text cs ov 0 0 (text.length + 1)

/-- Reassembly of a chunk list: the first chunk whole, every later chunk with
its first `overlap` characters removed. -/
def recon (ov : Nat) : List Chunk → List Char
  | [] => []
  | c :: rest => c.text ++ (rest.map (fun d => d.text.drop ov)).flatten

/-- The update applied to `start` by one non-breaking loop iteration,
`start = min(start + chunk_size, len(text)) - overlap`, over the integers
(as in Python, where the subtraction does not truncate). -/
def nextStartI (n cs ov start : Int) : Int := min (start + cs) n - ov

/-- Index of the last newline inside a list, if any. -/
def lastNlIdx (l : List Char) : Option Nat :=
  match l.reverse.findIdx? (fun c => c = '\n') with
  | some k => some (l.length - 1 - k)
  | none => none

/-- One pass of the first substitution of `clean_text`,
Python `re.sub(r'\n\s*\n', '\n\n', text)`: scanning left to right, a newline
followed by a (greedy, backtracking) whitespace run ending in a newline is
replaced by two newlines, and scanning resumes after the match.  Fuel-indexed
(`l.length` fuel always suffices since every step consumes at least one
character); when fuel runs out the remaining characters are kept unchanged. -/
def sub1Go : Nat → List Char → List Char
  | 0, l => l
  | _ + 1, [] => []
  | fuel + 1, c :: rest =>
    if c = '\n' then
      match lastNlIdx (rest.takeWhile Char.isWhitespace) with
      | some j => '\n' :: '\n' :: sub1Go fuel (rest.drop (j + 1))
      | none => c :: sub1Go fuel rest
    else c :: sub1Go fuel rest

def sub1 (l : List Char) : List Char := sub1Go l.length l

/-- The second substitution of `clean_text`, Python `re.sub(r'\s+', ' ', text)`:
every maximal run of whitespace characters is replaced by a single space.
The boolean records whether the scanner is inside a run whose space has
already been emitted. -/
def collapseGo : Bool → List Char → List Char
  | _, [] => []
  | prevWs, c :: rest =>
    if c.isWhitespace then
      if prevWs then collapseGo true rest
      else ' ' :: collapseGo true rest
    else c :: collapseGo false rest

def collapseWs (l : List Char) : List Char := collapseGo false l

/-- Removal of trailing whitespace (the right half of Python `str.strip()`). -/
def stripTrailing : List Char → List Char
  | [] => []
  | c :: rest =>
    match stripTrailing rest with
    | [] => if c.isWhitespace then [] else [c]
    | r => c :: r

/-- Python `text.strip()`: remove leading and trailing whitespace. -/
def pyStrip (l : List Char) : List Char :=
  stripTrailing (l.dropWhile Char.isWhitespace)

/-- `PDFProcessor.clean_text`: the two regex substitutions followed by
`strip()`. -/
def clean_text (t : List Char) : List Char := pyStrip (collapseWs (sub1 t))

/-- No two adjacent characters are both whitespace. -/
def noAdjWs : List Char → Bool
  | [] => true
  | [_] => true
  | a :: b :: rest => (!(a.isWhitespace && b.isWhitespace)) && noAdjWs (b :: rest)

/-- Python `str.split()` with no separator: split on whitespace runs,
discarding empty pieces (accumulator-based so that it is structurally
recursive).  `cur` holds the reversed current word. -/
def pySplitGo (cur : List Char) : List Char → List (List Char)
  | [] => if cur = [] then [] else [cur.reverse]
  | c :: rest =>
    if c.isWhitespace then
      if cur = [] then pySplitGo [] rest
      else cur.reverse :: pySplitGo [] rest
    else pySplitGo (c :: cur) rest

def pySplit (s : List Char) : List (List Char) := pySplitGo [] s

/-- Python `context.split('\n')`: split on newlines, keeping empty pieces. -/
def splitOnNlGo (cur : List Char) : List Char → List (List Char)
  | [] => [cur.reverse]
  | c :: rest =>
    if c = '\n' then cur.reverse :: splitOnNlGo [] rest
    else splitOnNlGo (c :: cur) rest

def splitOnNl (l : List Char) : List (List Char) := splitOnNlGo [] l

/-- Python `str.lower()`. -/
def pyLower (l : List Char) : List Char := l.map Char.toLower

/-- Python `' '.join(pieces)` (general separator). -/
def joinSep (sep : List Char) : List (List Char) → List Char
  | [] => []
  | x :: xs =>
    match xs with
    | [] => x
    | _ => x ++ sep ++ joinSep sep xs

/-- The loop of `LLMService._generate_fallback` (lines 226-231) that collects
the stripped context lines sharing at least one lowercased
whitespace-separated word with the question. -/
def relevantLines (question_words : List (List Char)) : List (List Char) → List (List Char)
  | [] => []
  | line :: rest =>
    if question_words.any (fun w => (pySplit (pyLower line)).contains w) then
      pyStrip line :: relevantLines question_words rest
    else relevantLines question_words rest

/-- `LLMService._generate_fallback(question, context)` (lines 220-236). -/
def generate_fallback (question context : List Char) : List Char :=
  if relevantLines (pySplit (pyLower question)) (splitOnNl context) ≠ [] then
    "Based on the resume: ".toList ++
      joinSep [' ']
        ((relevantLines (pySplit (pyLower question)) (splitOnNl context)).take 3)
  else
    "Based on the available information: ".toList ++ context.take 200 ++ "...".toList

/-- The generation backends of `LLMService` (`self.backend`). -/
inductive LLMBackend
  | ollama
  | huggingface
  | openai
  | fallbackMode
deriving DecidableEq

/-- `LLMService.generate_answer` (lines 108-131).  The three network backends
are external services, abstracted as an outcome that either returns an answer
or raises; every failure path falls back to `_generate_fallback`. -/
def generate_answer (backend : LLMBackend) (ext : Except (List Char) (List Char))
    (question context : List Char) : List Char :=
  match backend with
  | .fallbackMode => generate_fallback question context
  | _ =>
    match ext with
    | .ok ans => ans
    | .error _ => generate_fallback question context

/-- `LLMService._create_prompt` (lines 238-247): the f-string verbatim. -/
def create_prompt (question context : String) : String :=
  "Based on the following resume information, please answer the question clearly and concisely.\n\nResume Context:\n"
    ++ context ++ "\n\nQuestion: " ++ question ++ "\n\nAnswer:"

/-- `ResumeVectorService._format_context_for_llm` (lines 205-217):
`"\n".join(f"Context {i+1}: {chunk}" for i, chunk in enumerate(top_3_chunks))`. -/
def format_context_for_llm (top_3_chunks : List String) : String :=
  String.intercalate "\n"
    (top_3_chunks.enum.map (fun ic => "Context " ++ toString (ic.1 + 1) ++ ": " ++ ic.2))

/-- Spec-side rendering of the context block: the lines `Context i: chunk`,
numbered consecutively from `i`. -/
def contextLines : Nat → List String → List String
  | _, [] => []
  | i, c :: rest => ("Context " ++ toString i ++ ": " ++ c) :: contextLines (i + 1) rest

/-- A stored chunk together with its metadata and its embedding distance to
the current query.  Embeddings and distances are produced by the external
embedding model; a distance is modelled as a natural number. -/
structure StoreEntry where
  doc : String
  meta : String
  dist : Nat
deriving DecidableEq, Repr

instance : IsTotal StoreEntry (fun a b => a.dist ≤ b.dist) :=
  ⟨fun a b => Nat.le_total a.dist b.dist⟩

instance : IsTrans StoreEntry (fun a b => a.dist ≤ b.dist) :=
  ⟨fun _ _ _ => Nat.le_trans⟩

/-- Modelled from the spec: `collection.query` of the external ChromaDB
vector store is not part of this repository; per the spec it "answers
nearest-neighbor queries" and the retriever "returns ranked chunks by
distance", so it is modelled as returning the `n_results` stored entries of
smallest distance to the query, in nondecreasing distance order. -/
def queryCollection (entries : List StoreEntry) (n_results : Nat) : List StoreEntry :=
  (List.insertionSort (fun a b => a.dist ≤ b.dist) entries).take n_results

/-- The dictionary returned by `ChromaDBService.search_similar_chunks`. -/
structure SearchDict where
  documents : List String
  metadatas : List String
  distances : List Nat
  count : Nat
deriving DecidableEq, Repr

/-- `ChromaDBService.search_similar_chunks(query, n_results)` (lines 77-98):
on success it unpacks the query result into parallel documents, metadatas
and distances lists plus a count; on any exception from the underlying query
it returns the empty dictionary. -/
def search_similar_chunks (queryOutcome : Except String (List StoreEntry))
    (n_results : Nat) : SearchDict :=
  match queryOutcome with
  | .error _ => { documents := [], metadatas := [], distances := [], count := 0 }
  | .ok entries =>
    { documents := (queryCollection entries n_results).map (fun e => e.doc)
    , metadatas := (queryCollection entries n_results).map (fun e => e.meta)
    , distances := (queryCollection entries n_results).map (fun e => e.dist)
    , count := ((queryCollection entries n_results).map (fun e => e.doc)).length }

/-- The dictionary returned by `ResumeVectorService.search_resume_content`. -/
structure SearchContentResult where
  success : Bool
  query : String
  results : SearchDict
  error : Option String
  message : String
deriving DecidableEq, Repr

/-- `ResumeVectorService.search_resume_content` (lines 95-122): forwards the
search results unchanged (`search_similar_chunks` never raises, so the
exception branch is dead). -/
def search_resume_content (queryOutcome : Except String (List StoreEntry))
    (query : String) (n_results : Nat) : SearchContentResult :=
  { success := true
  , query := query
  , results := search_similar_chunks queryOutcome n_results
  , error := none
  , message := "Found " ++ toString (search_similar_chunks queryOutcome n_results).count
      ++ " relevant chunks" }

/-- Per-chunk metadata as assembled by `process_pdf_to_chunks`
(pdf_processor.py lines 152-160); the last three keys are added later by
`ResumeVectorService.process_resume_pdf` (lines 57-62), hence the `Option`. -/
structure ChunkMeta where
  chunk_index : Nat
  start_pos : Nat
  end_pos : Nat
  chunk_size : Nat
  overlap_chars : Nat
  source_file : String
  total_chunks : Nat
  document_type : Option String
  processing_timestamp : Option String
  embedding_model : Option String
deriving DecidableEq, Repr

/-- The metadata dictionary built for one chunk by `process_pdf_to_chunks`
(`os.path.basename` is an external path operation; the file name is taken
as given). -/
def baseMeta (fname : String) (total : Nat) (c : Chunk) : ChunkMeta :=
  { chunk_index := c.chunk_index, start_pos := c.start_pos, end_pos := c.end_pos
  , chunk_size := c.chunk_size, overlap_chars := c.overlap_chars
  , source_file := fname, total_chunks := total
  , document_type := none, processing_timestamp := none, embedding_model := none }

/-- The in-place `metadata.update(...)` of `ResumeVectorService.process_resume_pdf`
(lines 57-62). -/
def enrichMeta (timestamp : String) (m : ChunkMeta) : ChunkMeta :=
  { m with document_type := some "resume"
         , processing_timestamp := some timestamp
         , embedding_model := some "all-MiniLM-L6-v2" }

/-- The dictionary returned by `PDFProcessor.process_pdf_to_chunks`. -/
structure PdfChunksResult where
  original_text : List Char
  chunk_texts : List (List Char)
  chunk_metadata : List ChunkMeta
  total_chunks : Nat
  total_characters : Nat
  chunk_size : Nat
  overlap : Nat
  source_file : String
deriving DecidableEq, Repr

/-- `PDFProcessor.process_pdf_to_chunks` (lines 128-178), parametrised by the
extracted text: PDF text extraction is an external library (`pypdf`), so the
(cleaned) text it returns is taken as input. -/
def process_pdf_to_chunks (full_text : List Char) (pdf_path : String)
    (cs ov : Nat) : PdfChunksResult :=
  { original_text := full_text
  , chunk_texts := (create_chunks_with_overlap full_text cs ov).map (fun c => c.text)
  , chunk_metadata := (create_chunks_with_overlap full_text cs ov).map
      (baseMeta pdf_path (create_chunks_with_overlap full_text cs ov).length)
  , total_chunks := (create_chunks_with_overlap full_text cs ov).length
  , total_characters := full_text.length
  , chunk_size := cs
  , overlap := ov
  , source_file := pdf_path }

/-- Modelled from the spec: the external ChromaDB collection "persists chunks
with embeddings"; adding documents appends them, in order, with their
metadata (the random UUID ids carry no information and are omitted). -/
structure VectorStore where
  entries : List (List Char × ChunkMeta)
deriving DecidableEq, Repr

/-- `ChromaDBService.add_text_chunks` (lines 51-75): adds the documents with
their metadata to the collection and reports success. -/
def add_text_chunks (store : VectorStore) (chunks : List (List Char))
    (metadata : List ChunkMeta) : VectorStore × Bool :=
  ({ entries := store.entries ++ chunks.zip metadata }, true)

/-- The dictionary returned by `ResumeVectorService.process_resume_pdf`. -/
structure ProcessResumeResult where
  success : Bool
  message : String
  source_file : String
  total_chunks : Nat
  total_characters : Nat
  chunk_size : Nat
  overlap : Nat
  sample_chunk : Option (List Char)
  error : Option String
deriving DecidableEq, Repr

/-- `ResumeVectorService.process_resume_pdf` (lines 30-93) for a PDF whose
text extraction succeeds, parametrised by the extracted text and the
processing timestamp. -/
def process_resume_pdf (store : VectorStore) (full_text : List Char)
    (pdf_path : String) (cs ov : Nat) (timestamp : String) :
    VectorStore × ProcessResumeResult :=
  let pdf_result := process_pdf_to_chunks full_text pdf_path cs ov
  let chunk_texts := pdf_result.chunk_texts
  let chunk_metadata := pdf_result.chunk_metadata.map (enrichMeta timestamp)
  let added := add_text_chunks store chunk_texts chunk_metadata
  (added.1,
   { success := true
   , message := "Resume processed and vectors created successfully"
   , source_file := pdf_path
   , total_chunks := chunk_texts.length
   , total_characters := pdf_result.original_text.length
   , chunk_size := cs
   , overlap := ov
   , sample_chunk := chunk_texts.head?
   , error := none })

/-- Membership of `p` as a prefix of `l`. -/
def charsHavePre : List Char → List Char → Bool
  | [], _ => true
  | _ :: _, [] => false
  | p :: ps, c :: cs => p = c && charsHavePre ps cs

/-- Python `pat in s`: substring containment. -/
def charsHaveSub (pat : List Char) : List Char → Bool
  | [] => charsHavePre pat []
  | c :: cs => charsHavePre pat (c :: cs) || charsHaveSub pat cs

/-- Python `keyword in question.lower()` for strings. -/
def strContains (s pat : String) : Bool := charsHaveSub pat.toList s.toList

/-- The dictionary returned by the read path. -/
structure AnswerDict where
  success : Bool
  question : Option String
  answer : Option String
  llm_backend : Option String
  chunks_used : Option Nat
  error : Option String
  message : String
deriving DecidableEq, Repr

/-- `ResumeVectorService._generate_fallback_single_answer` (lines 219-246),
used when the LLM service module cannot be imported. -/
def generate_fallback_single_answer (question : String)
    (top_3_chunks : List String) : AnswerDict :=
  let primary := top_3_chunks.headD ""
  let answer :=
    if ["skill", "technology", "programming"].any (fun k => strContains question.toLower k) then
      "Technical skills include: " ++ primary
    else if ["experience", "work", "job"].any (fun k => strContains question.toLower k) then
      "Work experience: " ++ primary
    else if ["education", "degree", "study"].any (fun k => strContains question.toLower k) then
      "Educational background: " ++ primary
    else if ["contact", "email", "phone"].any (fun k => strContains question.toLower k) then
      "Contact information: " ++ primary
    else
      "Based on the resume: " ++ primary
  { success := true
  , question := some question
  , answer := some answer
  , llm_backend := some "fallback"
  , chunks_used := some top_3_chunks.length
  , error := none
  , message := "Single fallback answer generated from top "
      ++ toString top_3_chunks.length ++ " results" }

/-- `ResumeVectorService.answer_question_with_llm` (lines 124-203).
The underlying vector query and the LLM generation are external calls,
modelled as outcomes: `searchOutcome` is what `collection.query` does
(`search_similar_chunks` catches its exceptions itself), `llm = none` models
an `ImportError` of the LLM module (handled by the keyword fallback), and
`llm = some gen` a loaded service whose generation call may itself raise.
The dictionary returned by `search_similar_chunks` always has a `documents`
key, so the `'documents' not in search_results` branch of the code is dead
and does not appear. -/
def answer_question_with_llm (searchOutcome : Except String (List StoreEntry))
    (llm : Option (String → String → Except String String)) (backendName : String)
    (question : String) (n_results : Nat) : AnswerDict :=
  if (search_similar_chunks searchOutcome n_results).documents = [] then
    { success := false
    , question := none
    , answer := none
    , llm_backend := none
    , chunks_used := none
    , error := some "No relevant chunks found"
    , message := "Could not find relevant information in the resume" }
  else
    match llm with
    | none =>
      generate_fallback_single_answer question
        (search_similar_chunks searchOutcome n_results).documents
    | some gen =>
      match gen question (format_context_for_llm
          (search_similar_chunks searchOutcome n_results).documents) with
      | .ok single_answer =>
        { success := true
        , question := some question
        , answer := some single_answer
        , llm_backend := some backendName
        , chunks_used := some (search_similar_chunks searchOutcome n_results).documents.length
        , error := none
        , message := "Single answer generated from top "
            ++ toString (search_similar_chunks searchOutcome n_results).documents.length
            ++ " database results" }
      | .error e =>
        { success := false
        , question := none
        , answer := none
        , llm_backend := none
        , chunks_used := none
        , error := some e
        , message := "Failed to process question through RAG pipeline" }

/-! ### Theorems -/

/-- Conditional unfolding equation for the loop: as long as `start < len(text)`
and enough fuel remains, the loop appends `mkChunk` and either breaks
(`end >= len(text)`) or continues from `start = end - overlap`. -/
theorem createChunksAux_eq_cons (text : List Char) (cs ov start idx fuel : Nat)
    (hs : start < text.length) (hf : text.length - start ≤ fuel) :
    createChunksAux text cs ov start idx fuel =
      mkChunk text cs ov start idx ::
        (if text.length ≤ start + cs then []
         else createChunksAux text cs ov (start + cs - ov) (idx + 1) (fuel - 1)) := by
  cases fuel with
  | zero => omega
  | succ f =>
    by_cases he : text.length ≤ start + cs
    · simp only [createChunksAux, if_pos hs, if_pos he]
      rw [if_pos (by omega)]
    · simp only [createChunksAux, if_pos hs, if_neg he]
      rw [if_neg (by omega)]
      have hmin : min (start + cs) text.length = start + cs := by omega
      rw [hmin]
      simp

/-- Every chunk produced by the loop carries consecutive `chunk_index` values
starting from the initial index. -/
theorem createChunksAux_index (text : List Char) (cs ov : Nat) (hov : ov < cs) :
    ∀ fuel start idx, start < text.length → text.length - start ≤ fuel →
      ∀ j c, (createChunksAux text cs ov start idx fuel)[j]? = some c →
        c.chunk_index = idx + j := by
  intro fuel
  induction fuel with
  | zero => intro start idx hs hf; omega
  | succ f ih =>
    intro start idx hs hf j c hget
    rw [createChunksAux_eq_cons text cs ov start idx (f + 1) hs hf] at hget
    by_cases he : text.length ≤ start + cs
    · rw [if_pos he] at hget
      cases j with
      | zero => simp at hget; subst hget; simp [mkChunk]
      | succ j => simp at hget
    · rw [if_neg he] at hget
      cases j with
      | zero => simp at hget; subst hget; simp [mkChunk]
      | succ j =>
        rw [List.getElem?_cons_succ, Nat.add_sub_cancel] at hget
        have := ih (start + cs - ov) (idx + 1) (by omega) (by omega) j c hget
        omega

/-- Every chunk produced by the loop records its own slice of the input:
`text = text[start_pos:end_pos]` with `end_pos = min(start_pos + chunk_size, len(text))`
and `start_pos < len(text)`. -/
theorem createChunksAux_mem (text : List Char) (cs ov : Nat) (hov : ov < cs) :
    ∀ fuel start idx, start < text.length → text.length - start ≤ fuel →
      ∀ c ∈ createChunksAux text cs ov start idx fuel,
        c.start_pos < text.length ∧
        c.end_pos = min (c.start_pos + cs) text.length ∧
        c.text = (text.drop c.start_pos).take (c.end_pos - c.start_pos) := by
  intro fuel
  induction fuel with
  | zero => intro start idx hs hf; omega
  | succ f ih =>
    intro start idx hs hf c hc
    rw [createChunksAux_eq_cons text cs ov start idx (f + 1) hs hf] at hc
    rcases List.mem_cons.mp hc with hc | hc
    · subst hc
      refine ⟨hs, rfl, rfl⟩
    · by_cases he : text.length ≤ start + cs
      · rw [if_pos he] at hc; simp at hc
      · rw [if_neg he, Nat.add_sub_cancel] at hc
        exact ih (start + cs - ov) (idx + 1) (by omega) (by omega) c hc

/-- Consecutive loop chunks: the next chunk starts exactly `overlap`
characters before the current one ends, and every chunk that has a
successor is a full `chunk_size` window ending strictly inside the text. -/
theorem createChunksAux_adjacent (text : List Char) (cs ov : Nat) (hov : ov < cs) :
    ∀ fuel start idx, start < text.length → text.length - start ≤ fuel →
      ∀ j c d, (createChunksAux text cs ov start idx fuel)[j]? = some c →
        (createChunksAux text cs ov start idx fuel)[j + 1]? = some d →
        d.start_pos + ov = c.end_pos ∧ c.end_pos = c.start_pos + cs ∧
        c.start_pos + cs < text.length := by
  intro fuel
  induction fuel with
  | zero => intro start idx hs hf; omega
  | succ f ih =>
    intro start idx hs hf j c d hc hd
    rw [createChunksAux_eq_cons text cs ov start idx (f + 1) hs hf] at hc hd
    by_cases he : text.length ≤ start + cs
    · rw [if_pos he] at hd
      rcases j with _ | j <;> simp at hd
    · rw [if_neg he, Nat.add_sub_cancel] at hc hd
      have hs' : start + cs - ov < text.length := by omega
      have hf' : text.length - (start + cs - ov) ≤ f := by omega
      cases j with
      | zero =>
        simp only [List.getElem?_cons_zero, Option.some.injEq] at hc
        rw [List.getElem?_cons_succ,
          createChunksAux_eq_cons text cs ov (start + cs - ov) (idx + 1) f hs' hf'] at hd
        simp only [List.getElem?_cons_zero, Option.some.injEq] at hd
        subst hc; subst hd
        simp only [mkChunk]
        omega
      | succ j =>
        rw [List.getElem?_cons_succ] at hc hd
        exact ih (start + cs - ov) (idx + 1) hs' hf' j c d hc hd

/-- The final loop chunk (the one with no successor) ends exactly at
`len(text)`. -/
theorem createChunksAux_last (text : List Char) (cs ov : Nat) (hov : ov < cs) :
    ∀ fuel start idx, start < text.length → text.length - start ≤ fuel →
      ∀ j c, (createChunksAux text cs ov start idx fuel)[j]? = some c →
        (createChunksAux text cs ov start idx fuel)[j + 1]? = none →
        c.end_pos = text.length := by
  intro fuel
  induction fuel with
  | zero => intro start idx hs hf; omega
  | succ f ih =>
    intro start idx hs hf j c hc hd
    rw [createChunksAux_eq_cons text cs ov start idx (f + 1) hs hf] at hc hd
    by_cases he : text.length ≤ start + cs
    · rw [if_pos he] at hc
      cases j with
      | zero =>
        simp only [List.getElem?_cons_zero, Option.some.injEq] at hc
        subst hc; simp [mkChunk]; omega
      | succ j => simp at hc
    · rw [if_neg he, Nat.add_sub_cancel] at hc hd
      have hs' : start + cs - ov < text.length := by omega
      have hf' : text.length - (start + cs - ov) ≤ f := by omega
      cases j with
      | zero =>
        rw [List.getElem?_cons_succ,
          createChunksAux_eq_cons text cs ov (start + cs - ov) (idx + 1) f hs' hf'] at hd
        simp at hd
      | succ j =>
        rw [List.getElem?_cons_succ] at hc hd
        exact ih (start + cs - ov) (idx + 1) hs' hf' j c hc hd

/-- Dropping the leading `overlap` characters of every chunk after the first
and concatenating recovers exactly the suffix of the input the loop started
from. -/
theorem createChunksAux_recon (text : List Char) (cs ov : Nat) (hov : ov < cs) :
    ∀ fuel start idx, start < text.length → text.length - start ≤ fuel →
      recon ov (createChunksAux text cs ov start idx fuel) = text.drop start := by
  intro fuel
  induction fuel with
  | zero => intro start idx hs hf; omega
  | succ f ih =>
    intro start idx hs hf
    rw [createChunksAux_eq_cons text cs ov start idx (f + 1) hs hf]
    by_cases he : text.length ≤ start + cs
    · rw [if_pos he]
      simp only [recon, List.map_nil, List.flatten_nil, List.append_nil, mkChunk]
      have hmin : min (start + cs) text.length = text.length := by omega
      rw [hmin]
      exact List.take_of_length_le (by simp)
    · rw [if_neg he, Nat.add_sub_cancel]
      have hs' : start + cs - ov < text.length := by omega
      have hf' : text.length - (start + cs - ov) ≤ f := by omega
      have hrec := ih (start + cs - ov) (idx + 1) hs' hf'
      rw [createChunksAux_eq_cons text cs ov (start + cs - ov) (idx + 1) f hs' hf']
        at hrec ⊢
      set rest := (if text.length ≤ start + cs - ov + cs then []
        else createChunksAux text cs ov (start + cs - ov + cs - ov) (idx + 1 + 1) (f - 1))
        with hrest
      simp only [recon, List.map_cons, List.flatten_cons] at hrec ⊢
      have hlen : ov ≤ (mkChunk text cs ov (start + cs - ov) (idx + 1)).text.length := by
        simp only [mkChunk, List.length_take, List.length_drop]
        omega
      rw [← List.drop_append_of_le_length hlen, hrec]
      rw [List.drop_drop]
      have harith : start + cs - ov + ov = start + cs := by omega
      rw [harith]
      simp only [mkChunk]
      have hmin : min (start + cs) text.length = start + cs := by omega
      rw [hmin, Nat.add_sub_cancel_left]
      have := List.drop_take_append_drop' text start cs
      rw [Nat.add_comm cs start] at this
      exact this

/-- Once the loop position has passed the end of the text the loop produces
nothing, whatever fuel is supplied. -/
theorem createChunksAux_stop (text : List Char) (cs ov start idx : Nat)
    (hs : text.length ≤ start) :
    ∀ fuel, createChunksAux text cs ov start idx fuel = [] := by
  intro fuel
  cases fuel with
  | zero => rfl
  | succ f => simp only [createChunksAux]; rw [if_neg (by omega)]

/-- Termination of the while loop under `overlap < chunk_size`: the result is
independent of the fuel bound as soon as the fuel covers the remaining
distance to the end of the text, i.e. the loop never exhausts its budget. -/
theorem createChunksAux_fuel (text : List Char) (cs ov : Nat) (hov : ov < cs) :
    ∀ f g start idx, text.length - start ≤ f → text.length - start ≤ g →
      createChunksAux text cs ov start idx f = createChunksAux text cs ov start idx g := by
  intro f
  induction f with
  | zero =>
    intro g start idx hf hg
    rw [createChunksAux_stop text cs ov start idx (by omega),
      createChunksAux_stop text cs ov start idx (by omega)]
  | succ f ih =>
    intro g start idx hf hg
    by_cases hs : start < text.length
    · rw [createChunksAux_eq_cons text cs ov start idx (f + 1) hs hf,
        createChunksAux_eq_cons text cs ov start idx g hs hg]
      by_cases he : text.length ≤ start + cs
      · rw [if_pos he, if_pos he]
      · rw [if_neg he, if_neg he, Nat.add_sub_cancel]
        have hg1 : 1 ≤ g := by omega
        rw [ih (g - 1) (start + cs - ov) (idx + 1) (by omega) (by omega)]
    · rw [createChunksAux_stop text cs ov start idx (by omega),
        createChunksAux_stop text cs ov start idx (by omega)]

theorem drop_take_comm {α : Type} (l : List α) (m k : Nat) :
    (l.take m).drop k = (l.drop k).take (m - k) := by
  by_cases h : k ≤ m
  · have := List.take_drop k (m - k) l
    have hm : k + (m - k) = m := by omega
    rw [hm] at this
    exact this.symm
  · rw [List.drop_eq_nil_of_le (by simp; omega)]
    have : m - k = 0 := by omega
    rw [this, List.take_zero]

/-- C1: for `len(text) > chunk_size` and `0 <= overlap < chunk_size`,
`create_chunks_with_overlap` returns a non-empty list in which every chunk
with a successor has text of length exactly `chunk_size`, the first chunk
starts at position 0, the chunk with no successor ends at `len(text)`, and
`chunk_index` values are consecutive from 0; for `len(text) <= chunk_size`
it returns exactly one chunk whose text is the whole input. -/
theorem claim_C1 (text : List Char) (cs ov : Nat) :
    (ov < cs → cs < text.length →
      create_chunks_with_overlap text cs ov ≠ [] ∧
      (∀ (j : Nat) (c d : Chunk), (create_chunks_with_overlap text cs ov)[j]? = some c →
        (create_chunks_with_overlap text cs ov)[j + 1]? = some d →
        c.text.length = cs) ∧
      (∀ c : Chunk, (create_chunks_with_overlap text cs ov)[0]? = some c → c.start_pos = 0) ∧
      (∀ (j : Nat) (c : Chunk), (create_chunks_with_overlap text cs ov)[j]? = some c →
        (create_chunks_with_overlap text cs ov)[j + 1]? = none →
        c.end_pos = text.length) ∧
      (∀ (j : Nat) (c : Chunk), (create_chunks_with_overlap text cs ov)[j]? = some c →
        c.chunk_index = j)) ∧
    (text.length ≤ cs →
      (create_chunks_with_overlap text cs ov).length = 1 ∧
      ∀ c ∈ create_chunks_with_overlap text cs ov, c.text = text) := by
  constructor
  · intro hov hlen
    have hs : 0 < text.length := by omega
    have hf : text.length - 0 ≤ text.length + 1 := by omega
    have hL : create_chunks_with_overlap text cs ov =
        createChunksAux text cs ov 0 0 (text.length + 1) := by
      unfold create_chunks_with_overlap
      rw [if_neg (by omega)]
    refine ⟨?_, ?_, ?_, ?_, ?_⟩
    · rw [hL, createChunksAux_eq_cons text cs ov 0 0 (text.length + 1) hs hf]
      simp
    · intro j c d hc hd
      rw [hL] at hc hd
      obtain ⟨-, hend, htext⟩ :=
        createChunksAux_mem text cs ov hov (text.length + 1) 0 0 hs hf c
          (List.getElem?_mem hc)
      obtain ⟨-, hfull, hlt⟩ :=
        createChunksAux_adjacent text cs ov hov (text.length + 1) 0 0 hs hf j c d hc hd
      rw [htext, List.length_take, List.length_drop]
      omega
    · intro c hc
      rw [hL, createChunksAux_eq_cons text cs ov 0 0 (text.length + 1) hs hf] at hc
      simp only [List.getElem?_cons_zero, Option.some.injEq] at hc
      subst hc
      simp [mkChunk]
    · intro j c hc hd
      rw [hL] at hc hd
      exact createChunksAux_last text cs ov hov (text.length + 1) 0 0 hs hf j c hc hd
    · intro j c hc
      rw [hL] at hc
      have := createChunksAux_index text cs ov hov (text.length + 1) 0 0 hs hf j c hc
      omega
  · intro hlen
    have hL : create_chunks_with_overlap text cs ov =
        [{ text := text, chunk_index := 0, start_pos := 0, end_pos := text.length
         , chunk_size := text.length, overlap_chars := 0, total_text_length := none }] := by
      unfold create_chunks_with_overlap
      rw [if_pos hlen]
    rw [hL]
    refine ⟨rfl, ?_⟩
    intro c hc
    simp at hc
    subst hc
    rfl

/-- C2: under `0 <= overlap < chunk_size` and `len(text) > chunk_size`,
consecutive chunks overlap by exactly `overlap` characters: each chunk
starts `overlap` characters before its predecessor ends, and the first
`overlap` characters of a chunk equal the last `overlap` characters of its
predecessor. -/
theorem claim_C2 (text : List Char) (cs ov : Nat) (hov : ov < cs) (hlen : cs < text.length) :
    ∀ (j : Nat) (c d : Chunk), (create_chunks_with_overlap text cs ov)[j]? = some c →
      (create_chunks_with_overlap text cs ov)[j + 1]? = some d →
      d.start_pos = c.end_pos - ov ∧
      d.text.take ov = c.text.drop (c.text.length - ov) := by
  intro j c d hc hd
  have hs : 0 < text.length := by omega
  have hf : text.length - 0 ≤ text.length + 1 := by omega
  have hL : create_chunks_with_overlap text cs ov =
      createChunksAux text cs ov 0 0 (text.length + 1) := by
    unfold create_chunks_with_overlap
    rw [if_neg (by omega)]
  rw [hL] at hc hd
  obtain ⟨hadj, hfull, hlt⟩ :=
    createChunksAux_adjacent text cs ov hov (text.length + 1) 0 0 hs hf j c d hc hd
  obtain ⟨-, hcend, hctext⟩ :=
    createChunksAux_mem text cs ov hov (text.length + 1) 0 0 hs hf c (List.getElem?_mem hc)
  obtain ⟨hdpos, hdend, hdtext⟩ :=
    createChunksAux_mem text cs ov hov (text.length + 1) 0 0 hs hf d (List.getElem?_mem hd)
  refine ⟨by omega, ?_⟩
  have hclen : c.text.length = cs := by
    rw [hctext, List.length_take, List.length_drop]; omega
  have hdov : ov ≤ d.end_pos - d.start_pos := by omega
  -- first `overlap` characters of the successor chunk
  have hdside : d.text.take ov = (text.drop d.start_pos).take ov := by
    rw [hdtext, List.take_take]
    congr 1
    omega
  -- last `overlap` characters of the predecessor chunk
  have hcside : c.text.drop (c.text.length - ov) = (text.drop d.start_pos).take ov := by
    rw [hclen, hctext, drop_take_comm, List.drop_drop]
    have h1 : c.start_pos + (cs - ov) = d.start_pos := by omega
    have h2 : c.end_pos - c.start_pos - (cs - ov) = ov := by omega
    rw [h1, h2]
  rw [hdside, hcside]

/-- C3: each chunk text is the slice `text[start_pos:end_pos]` of the input,
and concatenating the first chunk with every later chunk stripped of its
first `overlap` characters reconstructs the input exactly. -/
theorem claim_C3 (text : List Char) (cs ov : Nat) (hov : ov < cs) :
    (∀ c ∈ create_chunks_with_overlap text cs ov,
      c.text = (text.drop c.start_pos).take (c.end_pos - c.start_pos)) ∧
    recon ov (create_chunks_with_overlap text cs ov) = text := by
  by_cases hlen : text.length ≤ cs
  · have hL : create_chunks_with_overlap text cs ov =
        [{ text := text, chunk_index := 0, start_pos := 0, end_pos := text.length
         , chunk_size := text.length, overlap_chars := 0, total_text_length := none }] := by
      unfold create_chunks_with_overlap
      rw [if_pos hlen]
    rw [hL]
    constructor
    · intro c hc
      simp at hc
      subst hc
      simp
    · simp [recon]
  · have hs : 0 < text.length := by omega
    have hf : text.length - 0 ≤ text.length + 1 := by omega
    have hL : create_chunks_with_overlap text cs ov =
        createChunksAux text cs ov 0 0 (text.length + 1) := by
      unfold create_chunks_with_overlap
      rw [if_neg (by omega)]
    rw [hL]
    constructor
    · intro c hc
      exact (createChunksAux_mem text cs ov hov (text.length + 1) 0 0 hs hf c hc).2.2
    · rw [createChunksAux_recon text cs ov hov (text.length + 1) 0 0 hs hf]
      exact List.drop_zero text

/-- C4: with `0 <= overlap < chunk_size` the chunking loop terminates on every
input (its result is stable under any sufficient fuel bound, and each
non-breaking iteration advances `start` by exactly `chunk_size - overlap`),
while with `overlap >= chunk_size` the integer start position computed by an
iteration never advances, so the precondition is required for totality. -/
theorem claim_C4 :
    (∀ (text : List Char) (cs ov fuel : Nat), ov < cs → text.length < fuel →
      createChunksAux text cs ov 0 0 fuel = create_chunks_with_overlap text cs ov ∨
      text.length ≤ cs) ∧
    (∀ n cs ov start : Int, 0 ≤ ov → ov < cs → start + cs ≤ n →
      nextStartI n cs ov start = start + (cs - ov)) ∧
    (∀ n cs ov start : Int, 0 < cs → cs ≤ ov → nextStartI n cs ov start ≤ start) := by
  refine ⟨?_, ?_, ?_⟩
  · intro text cs ov fuel hov hfuel
    by_cases hlen : text.length ≤ cs
    · exact Or.inr hlen
    · left
      unfold create_chunks_with_overlap
      rw [if_neg (by omega)]
      exact createChunksAux_fuel text cs ov hov fuel (text.length + 1) 0 0
        (by omega) (by omega)
  · intro n cs ov start h0 hov hle
    simp only [nextStartI]
    rw [min_eq_left (by omega)]
    omega
  · intro n cs ov start hcs hov
    simp only [nextStartI]
    have := min_le_left (start + cs) n
    omega

theorem claim_C1_witness :
    ((1 < 4 ∧ 4 < ("abcdefghijk".toList).length) ∧
      (create_chunks_with_overlap "abcdefghijk".toList 4 1 ≠ [] ∧
       (∀ (j : Nat) (c d : Chunk),
         (create_chunks_with_overlap "abcdefghijk".toList 4 1)[j]? = some c →
         (create_chunks_with_overlap "abcdefghijk".toList 4 1)[j + 1]? = some d →
         c.text.length = 4) ∧
       (∀ c : Chunk,
         (create_chunks_with_overlap "abcdefghijk".toList 4 1)[0]? = some c →
         c.start_pos = 0) ∧
       (∀ (j : Nat) (c : Chunk),
         (create_chunks_with_overlap "abcdefghijk".toList 4 1)[j]? = some c →
         (create_chunks_with_overlap "abcdefghijk".toList 4 1)[j + 1]? = none →
         c.end_pos = ("abcdefghijk".toList).length) ∧
       (∀ (j : Nat) (c : Chunk),
         (create_chunks_with_overlap "abcdefghijk".toList 4 1)[j]? = some c →
         c.chunk_index = j))) ∧
    (("ab".toList).length ≤ 4 ∧
      ((create_chunks_with_overlap "ab".toList 4 1).length = 1 ∧
       ∀ c ∈ create_chunks_with_overlap "ab".toList 4 1, c.text = "ab".toList)) :=
  ⟨⟨⟨by decide, by decide⟩, (claim_C1 "abcdefghijk".toList 4 1).1 (by decide) (by decide)⟩,
   ⟨by decide, (claim_C1 "ab".toList 4 1).2 (by decide)⟩⟩

theorem claim_C2_witness :
    (1 < 4 ∧ 4 < ("abcdefghijk".toList).length) ∧
    (∀ (j : Nat) (c d : Chunk),
      (create_chunks_with_overlap "abcdefghijk".toList 4 1)[j]? = some c →
      (create_chunks_with_overlap "abcdefghijk".toList 4 1)[j + 1]? = some d →
      d.start_pos = c.end_pos - 1 ∧
      d.text.take 1 = c.text.drop (c.text.length - 1)) :=
  ⟨⟨by decide, by decide⟩, claim_C2 "abcdefghijk".toList 4 1 (by decide) (by decide)⟩

theorem claim_C3_witness :
    1 < 4 ∧
    ((∀ c ∈ create_chunks_with_overlap "abcdefghijk".toList 4 1,
       c.text = (("abcdefghijk".toList).drop c.start_pos).take (c.end_pos - c.start_pos)) ∧
     recon 1 (create_chunks_with_overlap "abcdefghijk".toList 4 1) = "abcdefghijk".toList) :=
  ⟨by decide, claim_C3 "abcdefghijk".toList 4 1 (by decide)⟩

theorem claim_C4_witness :
    (1 < 2 ∧ ("abc".toList).length < 9 ∧
     (createChunksAux "abc".toList 2 1 0 0 9 = create_chunks_with_overlap "abc".toList 2 1 ∨
      ("abc".toList).length ≤ 2)) ∧
    ((0:Int) ≤ 1 ∧ (1:Int) < 3 ∧ (0:Int) + 3 ≤ 10 ∧
      nextStartI 10 3 1 0 = 0 + (3 - 1)) ∧
    ((0:Int) < 2 ∧ (2:Int) ≤ 5 ∧ nextStartI 10 2 5 0 ≤ 0) :=
  ⟨⟨by decide, by decide, claim_C4.1 "abc".toList 2 1 9 (by decide) (by decide)⟩,
   ⟨by decide, by decide, by decide, claim_C4.2.1 10 3 1 0 (by decide) (by decide) (by decide)⟩,
   ⟨by decide, by decide, claim_C4.2.2 10 2 5 0 (by decide) (by decide)⟩⟩

theorem noAdjWs_cons (a : Char) (l : List Char) :
    noAdjWs (a :: l) = ((match l.head? with
      | some b => !(a.isWhitespace && b.isWhitespace)
      | none => true) && noAdjWs l) := by
  cases l with
  | nil => rfl
  | cons b rest => rfl

theorem sub1Go_no_nl : ∀ (fuel : Nat) (l : List Char), '\n' ∉ l → sub1Go fuel l = l := by
  intro fuel
  induction fuel with
  | zero => intro l _; rfl
  | succ f ih =>
    intro l hnl
    cases l with
    | nil => rfl
    | cons c rest =>
      have hc : ¬c = '\n' := fun h => hnl (h ▸ List.mem_cons_self c rest)
      have hrest : '\n' ∉ rest := fun h => hnl (List.mem_cons_of_mem c h)
      simp only [sub1Go, if_neg hc]
      rw [ih rest hrest]

theorem sub1_no_nl (l : List Char) (hnl : '\n' ∉ l) : sub1 l = l :=
  sub1Go_no_nl l.length l hnl

theorem collapseGo_ws_space :
    ∀ (l : List Char) (b : Bool), ∀ x ∈ collapseGo b l, x.isWhitespace → x = ' ' := by
  intro l
  induction l with
  | nil => intro b x hx; simp [collapseGo] at hx
  | cons c rest ih =>
    intro b x hx hwx
    cases hw : c.isWhitespace with
    | true =>
      cases b with
      | true =>
        simp only [collapseGo, hw, if_true] at hx
        exact ih true x hx hwx
      | false =>
        simp only [collapseGo, hw, if_true, Bool.false_eq_true, if_false] at hx
        rcases List.mem_cons.mp hx with h | h
        · exact h
        · exact ih true x h hwx
    | false =>
      simp only [collapseGo, hw, Bool.false_eq_true, if_false] at hx
      rcases List.mem_cons.mp hx with h | h
      · subst h; simp [hw] at hwx
      · exact ih false x h hwx

theorem collapseGo_true_head :
    ∀ l : List Char, ∀ x, (collapseGo true l).head? = some x → x.isWhitespace = false := by
  intro l
  induction l with
  | nil => intro x hx; simp [collapseGo] at hx
  | cons c rest ih =>
    intro x hx
    cases hw : c.isWhitespace with
    | true =>
      simp only [collapseGo, hw, if_true] at hx
      exact ih x hx
    | false =>
      simp only [collapseGo, hw, Bool.false_eq_true, if_false, List.head?_cons,
        Option.some.injEq] at hx
      subst hx
      exact hw

theorem collapseGo_noAdjWs : ∀ (l : List Char) (b : Bool), noAdjWs (collapseGo b l) = true := by
  intro l
  induction l with
  | nil => intro b; rfl
  | cons c rest ih =>
    intro b
    cases hw : c.isWhitespace with
    | true =>
      cases b with
      | true =>
        simp only [collapseGo, hw, if_true]
        exact ih true
      | false =>
        simp only [collapseGo, hw, if_true, Bool.false_eq_true, if_false]
        rw [noAdjWs_cons]
        cases hh : (collapseGo true rest).head? with
        | none => simp [ih true]
        | some x =>
          have hx := collapseGo_true_head rest x hh
          simp [hx, ih true]
    | false =>
      simp only [collapseGo, hw, Bool.false_eq_true, if_false]
      rw [noAdjWs_cons]
      cases hh : (collapseGo false rest).head? with
      | none => simp [ih false]
      | some x => simp [hw, ih false]

theorem collapseGo_id :
    ∀ l : List Char, noAdjWs l = true → (∀ x ∈ l, x.isWhitespace → x = ' ') →
      collapseGo false l = l ∧
      ((∀ x, l.head? = some x → x.isWhitespace = false) → collapseGo true l = l) := by
  intro l
  induction l with
  | nil => intro _ _; exact ⟨rfl, fun _ => rfl⟩
  | cons c rest ih =>
    intro hadj hsp
    have hadj' : noAdjWs rest = true := by
      rw [noAdjWs_cons] at hadj
      exact (Bool.and_eq_true_iff.mp hadj).2
    have hsp' : ∀ x ∈ rest, x.isWhitespace → x = ' ' :=
      fun x hx => hsp x (List.mem_cons_of_mem c hx)
    obtain ⟨ih1, ih2⟩ := ih hadj' hsp'
    cases hw : c.isWhitespace with
    | false =>
      refine ⟨?_, fun _ => ?_⟩ <;>
        simp [collapseGo, hw, ih1]
    | true =>
      have hc : c = ' ' := hsp c (List.mem_cons_self c rest) hw
      have hhead : ∀ x, rest.head? = some x → x.isWhitespace = false := by
        intro x hx
        rw [noAdjWs_cons, hx] at hadj
        simp only [hw, Bool.true_and, Bool.and_eq_true] at hadj
        simpa using hadj.1
      constructor
      · simp [collapseGo, hw, ih2 hhead, hc]
      · intro hx
        have := hx c rfl
        rw [hw] at this
        cases this

theorem stripTrailing_cons (c : Char) (rest : List Char) :
    stripTrailing (c :: rest) =
      (match stripTrailing rest with
       | [] => if c.isWhitespace then [] else [c]
       | r => c :: r) := rfl

theorem stripTrailing_append : ∀ l : List Char, ∃ t, stripTrailing l ++ t = l := by
  intro l
  induction l with
  | nil => exact ⟨[], rfl⟩
  | cons c rest ih =>
    obtain ⟨t, ht⟩ := ih
    cases hr : stripTrailing rest with
    | nil =>
      cases hw : c.isWhitespace with
      | true => exact ⟨c :: rest, by simp [stripTrailing, hr, hw]⟩
      | false =>
        refine ⟨rest, ?_⟩
        simp [stripTrailing, hr, hw]
    | cons d r' =>
      refine ⟨t, ?_⟩
      rw [hr] at ht
      simp [stripTrailing, hr, ht]

theorem stripTrailing_getLast? :
    ∀ l : List Char, ∀ x, (stripTrailing l).getLast? = some x → x.isWhitespace = false := by
  intro l
  induction l with
  | nil => intro x hx; simp [stripTrailing] at hx
  | cons c rest ih =>
    intro x hx
    cases hr : stripTrailing rest with
    | nil =>
      cases hw : c.isWhitespace with
      | true => simp [stripTrailing, hr, hw] at hx
      | false =>
        simp only [stripTrailing, hr, hw, Bool.false_eq_true, if_false,
          List.getLast?_singleton, Option.some.injEq] at hx
        subst hx
        exact hw
    | cons d r' =>
      simp only [stripTrailing, hr] at hx
      rw [List.getLast?_cons_cons] at hx
      rw [← hr] at hx
      exact ih x hx

theorem stripTrailing_id :
    ∀ l : List Char, (∀ x, l.getLast? = some x → x.isWhitespace = false) →
      stripTrailing l = l := by
  intro l
  induction l with
  | nil => intro _; rfl
  | cons c rest ih =>
    intro hlast
    cases rest with
    | nil =>
      have hc := hlast c (by simp)
      simp [stripTrailing, hc]
    | cons d rest' =>
      have hr : stripTrailing (d :: rest') = d :: rest' := by
        refine ih ?_
        intro x hx
        exact hlast x (by rw [List.getLast?_cons_cons]; exact hx)
      rw [stripTrailing_cons, hr]

theorem noAdjWs_append_right :
    ∀ a b : List Char, noAdjWs (a ++ b) = true → noAdjWs b = true := by
  intro a
  induction a with
  | nil => intro b h; exact h
  | cons c a' ih =>
    intro b h
    rw [List.cons_append, noAdjWs_cons] at h
    exact ih b (Bool.and_eq_true_iff.mp h).2

theorem noAdjWs_append_left :
    ∀ a b : List Char, noAdjWs (a ++ b) = true → noAdjWs a = true := by
  intro a
  induction a with
  | nil => intro b _; rfl
  | cons c a' ih =>
    intro b h
    rw [List.cons_append, noAdjWs_cons] at h
    obtain ⟨h1, h2⟩ := Bool.and_eq_true_iff.mp h
    rw [noAdjWs_cons]
    rw [Bool.and_eq_true_iff]
    refine ⟨?_, ih b h2⟩
    cases a' with
    | nil => rfl
    | cons d a'' => simpa using h1

theorem mem_of_mem_stripTrailing {x : Char} {l : List Char}
    (hx : x ∈ stripTrailing l) : x ∈ l := by
  obtain ⟨t, ht⟩ := stripTrailing_append l
  rw [← ht]
  exact List.mem_append_left t hx

theorem mem_of_mem_pyStrip {x : Char} {l : List Char} (hx : x ∈ pyStrip l) : x ∈ l := by
  have h1 := mem_of_mem_stripTrailing hx
  rw [← List.takeWhile_append_dropWhile Char.isWhitespace l]
  exact List.mem_append_right _ h1

theorem noAdjWs_pyStrip {l : List Char} (h : noAdjWs l = true) :
    noAdjWs (pyStrip l) = true := by
  have hdrop : noAdjWs (l.dropWhile Char.isWhitespace) = true := by
    refine noAdjWs_append_right (l.takeWhile Char.isWhitespace) _ ?_
    rw [List.takeWhile_append_dropWhile Char.isWhitespace l]
    exact h
  obtain ⟨t, ht⟩ := stripTrailing_append (l.dropWhile Char.isWhitespace)
  refine noAdjWs_append_left _ t ?_
  unfold pyStrip
  rw [ht]
  exact hdrop

theorem clean_text_ws_space (t : List Char) :
    ∀ x ∈ clean_text t, x.isWhitespace → x = ' ' := by
  intro x hx hwx
  exact collapseGo_ws_space (sub1 t) false x (mem_of_mem_pyStrip hx) hwx

theorem clean_text_noAdjWs (t : List Char) : noAdjWs (clean_text t) = true :=
  noAdjWs_pyStrip (collapseGo_noAdjWs (sub1 t) false)

theorem clean_text_no_nl (t : List Char) : '\n' ∉ clean_text t := by
  intro hmem
  have := clean_text_ws_space t '\n' hmem (by decide)
  cases this

theorem clean_text_head (t : List Char) :
    ∀ x, (clean_text t).head? = some x → x.isWhitespace = false := by
  intro x hx
  have hx0 : (stripTrailing ((collapseWs (sub1 t)).dropWhile Char.isWhitespace)).head? =
      some x := hx
  obtain ⟨tl, htl⟩ :=
    stripTrailing_append ((collapseWs (sub1 t)).dropWhile Char.isWhitespace)
  have hx1 : ((collapseWs (sub1 t)).dropWhile Char.isWhitespace).head? = some x := by
    rw [← htl]
    cases hs : stripTrailing ((collapseWs (sub1 t)).dropWhile Char.isWhitespace) with
    | nil => rw [hs] at hx0; cases hx0
    | cons y ys =>
      rw [hs] at hx0
      rw [List.cons_append, List.head?_cons]
      rw [List.head?_cons] at hx0
      exact hx0
  have hmain := List.head?_dropWhile_not Char.isWhitespace (collapseWs (sub1 t))
  rw [hx1] at hmain
  exact hmain

theorem clean_text_last (t : List Char) :
    ∀ x, (clean_text t).getLast? = some x → x.isWhitespace = false := by
  intro x hx
  exact stripTrailing_getLast? _ x hx

theorem clean_text_idem (t : List Char) : clean_text (clean_text t) = clean_text t := by
  have hsub : sub1 (clean_text t) = clean_text t :=
    sub1_no_nl (clean_text t) (clean_text_no_nl t)
  have hcoll : collapseWs (clean_text t) = clean_text t := by
    unfold collapseWs
    exact (collapseGo_id (clean_text t) (clean_text_noAdjWs t) (clean_text_ws_space t)).1
  have hdrop : (clean_text t).dropWhile Char.isWhitespace = clean_text t := by
    cases hs : clean_text t with
    | nil => rfl
    | cons y ys =>
      have hy : y.isWhitespace = false := by
        refine clean_text_head t y ?_
        rw [hs]
        rfl
      rw [List.dropWhile_cons_of_neg (by simp [hy])]
  have hstrip : stripTrailing (clean_text t) = clean_text t := by
    refine stripTrailing_id (clean_text t) ?_
    intro x hx
    exact clean_text_last t x hx
  show pyStrip (collapseWs (sub1 (clean_text t))) = clean_text t
  rw [hsub, hcoll]
  unfold pyStrip
  rw [hdrop, hstrip]

/-- C9: `PDFProcessor.clean_text` is idempotent, its output contains no two
adjacent whitespace characters, no leading or trailing whitespace, and no
newline at all: every whitespace character that survives is a single space. -/
theorem claim_C9 (t : List Char) :
    clean_text (clean_text t) = clean_text t ∧
    noAdjWs (clean_text t) = true ∧
    (∀ x, (clean_text t).head? = some x → x.isWhitespace = false) ∧
    (∀ x, (clean_text t).getLast? = some x → x.isWhitespace = false) ∧
    '\n' ∉ clean_text t ∧
    (∀ x ∈ clean_text t, x.isWhitespace → x = ' ') :=
  ⟨clean_text_idem t, clean_text_noAdjWs t, clean_text_head t, clean_text_last t,
   clean_text_no_nl t, clean_text_ws_space t⟩

theorem claim_C9_witness :
    clean_text ("  a  b\n\nc \n".toList) = "a b c".toList ∧
    (clean_text ("  a  b\n\nc \n".toList)).head? = some 'a' ∧
    (clean_text (clean_text ("  a  b\n\nc \n".toList)) = clean_text ("  a  b\n\nc \n".toList) ∧
     noAdjWs (clean_text ("  a  b\n\nc \n".toList)) = true ∧
     (∀ x, (clean_text ("  a  b\n\nc \n".toList)).head? = some x → x.isWhitespace = false) ∧
     (∀ x, (clean_text ("  a  b\n\nc \n".toList)).getLast? = some x → x.isWhitespace = false) ∧
     '\n' ∉ clean_text ("  a  b\n\nc \n".toList) ∧
     (∀ x ∈ clean_text ("  a  b\n\nc \n".toList), x.isWhitespace → x = ' ')) :=
  ⟨by decide, by decide, claim_C9 ("  a  b\n\nc \n".toList)⟩

theorem enumFrom_map_contextLines (l : List String) :
    ∀ k : Nat, (List.enumFrom k l).map
        (fun ic => "Context " ++ toString (ic.1 + 1) ++ ": " ++ ic.2) =
      contextLines (k + 1) l := by
  induction l with
  | nil => intro k; rfl
  | cons c rest ih =>
    intro k
    simp only [List.enumFrom, List.map_cons, contextLines]
    rw [ih (k + 1)]

/-- C6: the synthesizer formats the retrieved chunks as the lines
`Context 1: c1` through `Context k: ck` joined by single newlines, and the
prompt embeds the context block and the question verbatim between fixed
string pieces. -/
theorem claim_C6 (chunks : List String) :
    format_context_for_llm chunks = String.intercalate "\n" (contextLines 1 chunks) ∧
    (∃ pre mid post : String, ∀ question context : String,
      create_prompt question context = pre ++ context ++ mid ++ question ++ post) := by
  constructor
  · unfold format_context_for_llm
    rw [show chunks.enum = List.enumFrom 0 chunks from rfl, enumFrom_map_contextLines chunks 0]
  · exact ⟨"Based on the following resume information, please answer the question clearly and concisely.\n\nResume Context:\n",
      "\n\nQuestion: ", "\n\nAnswer:", fun _ _ => rfl⟩

theorem relevantLines_eq_filter (qw : List (List Char)) :
    ∀ lines : List (List Char),
      relevantLines qw lines =
        (lines.filter
          (fun line => qw.any (fun w => (pySplit (pyLower line)).contains w))).map
          pyStrip := by
  intro lines
  induction lines with
  | nil => rfl
  | cons line rest ih =>
    by_cases h : (qw.any (fun w => (pySplit (pyLower line)).contains w)) = true
    · simp only [relevantLines, if_pos h, List.filter_cons, h, ite_true, List.map_cons]
      rw [ih]
    · have h' : (qw.any fun w => (pySplit (pyLower line)).contains w) = false := by
        simpa using h
      simp only [relevantLines, List.filter_cons, h', Bool.false_eq_true, if_false]
      exact ih

/-- C7 (amended): with the fallback backend, `generate_answer` never consults
an external backend and returns the keyword-matching answer: the context
lines sharing at least one whitespace-separated lowercase word with the
question are selected in order (stripped); if any match, the answer is the
first at most three of them joined by single spaces after
`Based on the resume: `; if none match, the answer is the first 200
characters of the context after `Based on the available information: `
followed by `...`. -/
theorem claim_C7 (ext : Except (List Char) (List Char)) (question context : List Char) :
    (relevantLines (pySplit (pyLower question)) (splitOnNl context) =
      ((splitOnNl context).filter
        (fun line => (pySplit (pyLower question)).any
          (fun w => (pySplit (pyLower line)).contains w))).map pyStrip) ∧
    (relevantLines (pySplit (pyLower question)) (splitOnNl context) = [] →
      generate_answer .fallbackMode ext question context =
        "Based on the available information: ".toList ++ context.take 200 ++ "...".toList) ∧
    (relevantLines (pySplit (pyLower question)) (splitOnNl context) ≠ [] →
      generate_answer .fallbackMode ext question context =
        "Based on the resume: ".toList ++ joinSep [' ']
          ((relevantLines (pySplit (pyLower question)) (splitOnNl context)).take 3)) := by
  refine ⟨relevantLines_eq_filter (pySplit (pyLower question)) (splitOnNl context), ?_, ?_⟩
  · intro hempty
    show generate_fallback question context = _
    unfold generate_fallback
    rw [if_neg (by simp [hempty])]
  · intro hne
    show generate_fallback question context = _
    unfold generate_fallback
    rw [if_pos hne]

/-- C7 as literally stated is false at a concrete input: when no context line
matches, the fallback answer is not the first 200 characters of the context
prefixed with `Based on the available information: `; the code appends a
trailing `...` after them. -/
theorem claim_C7_cex :
    generate_answer .fallbackMode (Except.error "".toList) "qq".toList "zz".toList ≠
      "Based on the available information: ".toList ++ "zz".toList ∧
    generate_answer .fallbackMode (Except.error "".toList) "qq".toList "zz".toList =
      "Based on the available information: zz...".toList := by
  constructor
  · decide
  · decide

theorem claim_C7_witness :
    (relevantLines (pySplit (pyLower "skills".toList))
        (splitOnNl "line one\nmy skills here".toList) ≠ [] ∧
     generate_answer .fallbackMode (Except.error "".toList) "skills".toList
        "line one\nmy skills here".toList =
       "Based on the resume: ".toList ++ joinSep [' ']
         ((relevantLines (pySplit (pyLower "skills".toList))
            (splitOnNl "line one\nmy skills here".toList)).take 3)) ∧
    (relevantLines (pySplit (pyLower "qq".toList)) (splitOnNl "zz".toList) = [] ∧
     generate_answer .fallbackMode (Except.error "".toList) "qq".toList "zz".toList =
       "Based on the available information: ".toList ++ ("zz".toList).take 200 ++
         "...".toList) :=
  ⟨⟨by decide,
    (claim_C7 (Except.error "".toList) "skills".toList
      "line one\nmy skills here".toList).2.2 (by decide)⟩,
   ⟨by decide,
    (claim_C7 (Except.error "".toList) "qq".toList "zz".toList).2.1 (by decide)⟩⟩

/-- C5: the retriever returns chunks ranked by distance: the distances list is
sorted in nondecreasing order, it is as long as the documents list, at most
`n_results` chunks are returned, and `search_resume_content` forwards the
dictionary unchanged. -/
theorem claim_C5 (entries : List StoreEntry) (query : String) (n_results : Nat) :
    List.Sorted (· ≤ ·) (search_similar_chunks (.ok entries) n_results).distances ∧
    (search_similar_chunks (.ok entries) n_results).distances.length =
      (search_similar_chunks (.ok entries) n_results).documents.length ∧
    (search_similar_chunks (.ok entries) n_results).documents.length ≤ n_results ∧
    (search_similar_chunks (.ok entries) n_results).count =
      (search_similar_chunks (.ok entries) n_results).documents.length ∧
    (search_resume_content (.ok entries) query n_results).results =
      search_similar_chunks (.ok entries) n_results ∧
    (search_resume_content (.ok entries) query n_results).success = true := by
  refine ⟨?_, ?_, ?_, rfl, rfl, rfl⟩
  · show List.Sorted (· ≤ ·) ((queryCollection entries n_results).map (fun e => e.dist))
    have hsorted : List.Sorted (fun a b => a.dist ≤ b.dist)
        (List.insertionSort (fun a b => a.dist ≤ b.dist) entries) :=
      List.sorted_insertionSort (fun a b => a.dist ≤ b.dist) entries
    have htake : List.Sorted (fun a b => a.dist ≤ b.dist) (queryCollection entries n_results) :=
      List.Pairwise.sublist (List.take_sublist n_results _) hsorted
    exact List.pairwise_map.mpr htake
  · show ((queryCollection entries n_results).map (fun e => e.dist)).length =
      ((queryCollection entries n_results).map (fun e => e.doc)).length
    rw [List.length_map, List.length_map]
  · show ((queryCollection entries n_results).map (fun e => e.doc)).length ≤ n_results
    rw [List.length_map]
    unfold queryCollection
    rw [List.length_take]
    omega

/-- C8: on the write path, for a PDF whose text extraction succeeds,
`process_resume_pdf` appends to the vector store exactly the chunk texts
produced by the chunker, one document per chunk in chunk order, each paired
with its (enriched) metadata, and reports `total_chunks` equal to the number
of chunks and `total_characters` equal to the length of the extracted text. -/
theorem claim_C8 (store : VectorStore) (full_text : List Char) (pdf_path : String)
    (cs ov : Nat) (timestamp : String) :
    ((process_resume_pdf store full_text pdf_path cs ov timestamp).1).entries.map Prod.fst =
      store.entries.map Prod.fst ++
        (create_chunks_with_overlap full_text cs ov).map (fun c => c.text) ∧
    ((process_resume_pdf store full_text pdf_path cs ov timestamp).1).entries.map Prod.snd =
      store.entries.map Prod.snd ++
        (create_chunks_with_overlap full_text cs ov).map
          (fun c => enrichMeta timestamp
            (baseMeta pdf_path (create_chunks_with_overlap full_text cs ov).length c)) ∧
    (process_resume_pdf store full_text pdf_path cs ov timestamp).2.total_chunks =
      (create_chunks_with_overlap full_text cs ov).length ∧
    (process_resume_pdf store full_text pdf_path cs ov timestamp).2.total_characters =
      full_text.length ∧
    (process_resume_pdf store full_text pdf_path cs ov timestamp).2.success = true := by
  have hlen : ((create_chunks_with_overlap full_text cs ov).map (fun c => c.text)).length =
      (((create_chunks_with_overlap full_text cs ov).map
        (baseMeta pdf_path (create_chunks_with_overlap full_text cs ov).length)).map
          (enrichMeta timestamp)).length := by
    rw [List.length_map, List.length_map, List.length_map]
  refine ⟨?_, ?_, ?_, rfl, rfl⟩
  · show (store.entries ++ _).map Prod.fst = _
    simp only [process_pdf_to_chunks]
    rw [List.map_append, List.map_fst_zip _ _ (le_of_eq hlen)]
  · show (store.entries ++ _).map Prod.snd = _
    simp only [process_pdf_to_chunks]
    rw [List.map_append, List.map_snd_zip _ _ (ge_of_eq hlen)]
    rw [List.map_map]
    rfl
  · show ((create_chunks_with_overlap full_text cs ov).map (fun c => c.text)).length = _
    rw [List.length_map]

/-- C10: when retrieval yields no documents (an empty store or a failed
underlying query), the read path returns `success = False` without invoking
any generation backend (the result does not depend on the LLM argument), and
every exception injected into the read path is caught and surfaced as a
returned dictionary with `success = False` and an `error` value, never
propagated. -/
theorem claim_C10 :
    (∀ (e : String) (llm : Option (String → String → Except String String))
       (backendName question : String) (n : Nat),
      (answer_question_with_llm (.error e) llm backendName question n).success = false ∧
      (answer_question_with_llm (.error e) llm backendName question n).error ≠ none) ∧
    (∀ (so : Except String (List StoreEntry))
       (llm1 llm2 : Option (String → String → Except String String))
       (b1 b2 question : String) (n : Nat),
      (search_similar_chunks so n).documents = [] →
      answer_question_with_llm so llm1 b1 question n =
        answer_question_with_llm so llm2 b2 question n ∧
      (answer_question_with_llm so llm1 b1 question n).success = false) ∧
    (∀ (so : Except String (List StoreEntry))
       (gen : String → String → Except String String)
       (backendName question e : String) (n : Nat),
      gen question (format_context_for_llm (search_similar_chunks so n).documents) =
        .error e →
      (answer_question_with_llm so (some gen) backendName question n).success = false ∧
      (answer_question_with_llm so (some gen) backendName question n).error ≠ none) := by
  refine ⟨?_, ?_, ?_⟩
  · intro e llm backendName question n
    have hdoc : (search_similar_chunks (.error e) n).documents = [] := rfl
    unfold answer_question_with_llm
    rw [if_pos hdoc]
    exact ⟨rfl, by simp⟩
  · intro so llm1 llm2 b1 b2 question n hdoc
    unfold answer_question_with_llm
    rw [if_pos hdoc, if_pos hdoc]
    exact ⟨rfl, rfl⟩
  · intro so gen backendName question e n hgen
    by_cases hdoc : (search_similar_chunks so n).documents = []
    · unfold answer_question_with_llm
      rw [if_pos hdoc]
      exact ⟨rfl, by simp⟩
    · unfold answer_question_with_llm
      rw [if_neg hdoc]
      dsimp only
      rw [hgen]
      exact ⟨rfl, by simp⟩

theorem claim_C10_witness :
    ((answer_question_with_llm (.error "query failed") none "auto" "q" 3).success = false ∧
     (answer_question_with_llm (.error "query failed") none "auto" "q" 3).error ≠ none) ∧
    ((search_similar_chunks (Except.error "query failed" :
        Except String (List StoreEntry)) 3).documents = [] ∧
     (answer_question_with_llm (.error "query failed")
        (some (fun _ _ => Except.ok "an answer")) "ollama" "q" 3 =
       answer_question_with_llm (.error "query failed") none "fallback" "q" 3 ∧
      (answer_question_with_llm (.error "query failed")
        (some (fun _ _ => Except.ok "an answer")) "ollama" "q" 3).success = false)) ∧
    ((fun (_ _ : String) => (Except.error "llm down" : Except String String)) "q"
        (format_context_for_llm (search_similar_chunks (Except.error "query failed" :
          Except String (List StoreEntry)) 3).documents) = Except.error "llm down" ∧
     ((answer_question_with_llm (.error "query failed")
        (some (fun _ _ => Except.error "llm down")) "auto" "q" 3).success = false ∧
      (answer_question_with_llm (.error "query failed")
        (some (fun _ _ => Except.error "llm down")) "auto" "q" 3).error ≠ none)) :=
  ⟨claim_C10.1 "query failed" none "auto" "q" 3,
   ⟨rfl, claim_C10.2.1 (.error "query failed") (some (fun _ _ => Except.ok "an answer"))
      none "ollama" "fallback" "q" 3 rfl⟩,
   ⟨rfl, claim_C10.2.2 (.error "query failed") (fun _ _ => Except.error "llm down")
      "auto" "q" "llm down" 3 rfl⟩⟩
end ResumeQA
